import Mathlib

/-!
Verification of the statistical core of the CSV_to_Actionable_Insights
pipeline (count normalization, Welch t-test engine, Benjamini-Hochberg
FDR correction), shallowly embedded from `src/bin/preprocess_counts.py`
and `src/bin/differential_expression.py`.

Modelling conventions:
- IEEE-754 double values that stay finite are modelled as exact rationals.
- NaN produced by library arithmetic is modelled explicitly: `Option ℚ`
  (with `none` for NaN) in the testing engine, and an `FVal` type with
  NaN and signed infinities in the normalizer.
- `np.argsort(p)` (default quicksort, unspecified tie order) is modelled
  by a parameter `ord` constrained by `IsArgsort`: a permutation of
  `range n` along which the p-values are non-decreasing.
- `scipy.stats.ttest_ind(a, b, equal_var=False)` computes the Welch
  statistic `t = (mean a - mean b) / sqrt(va/na + vb/nb)` with `ddof = 1`
  variances, the Welch-Satterthwaite degrees of freedom, and the two-sided
  p-value `2 * sf(|t|, df)` from the Student t survival function. The
  transcendental part `2 * sf(|t|, df)` is kept as a parameter `tsf`
  (applied to `t ^ 2` and `df`, both rational); every claim below depends
  only on the rational skeleton (NaN cases and argument symmetry), never
  on the value of `tsf`.
-/

-- Batteries marks the rational field operations irreducible; restore kernel
-- evaluation so that concrete runs of the embedded code can be checked by
-- `decide`.
attribute [local semireducible] Rat.mul Rat.inv Rat.add Rat.sub

/-- Generic suffix minima: `np.minimum.accumulate(xs[::-1])[::-1]`, written with
the binary minimum as a parameter so the same definition serves the exact
rational case and the NaN-propagating case. -/
def suffixMinsBy {α : Type} (m : α → α → α) : List α → List α
  | [] => []
  | x :: xs =>
    match suffixMinsBy m xs with
    | [] => [x]
    | y :: r => m x y :: y :: r

/-- Rank array of `benjamini_hochberg`: `ranks[order] = np.arange(1, n + 1)`
means the rank of index `i` is one plus the position of `i` in `order`. -/
def bhRanks (ord : List ℕ) (i : ℕ) : ℕ := ord.indexOf i + 1

/-- The function `benjamini_hochberg` from `src/bin/differential_expression.py`
lines 10-22,
with the `np.argsort` result passed in as `ord` (see `IsArgsort`).

- `adjusted` is line 17: `p_values * n / ranks`.
- `adjSorted` and `mono` are line 18:
  `np.minimum.accumulate(adjusted[order][::-1])[::-1]`.
- `clipped` is line 19: `np.clip(adjusted, 0, 1)`, i.e. `min (max x 0) 1`.
- the final map is lines 20-21: `result[order] = adjusted`. -/
def benjamini_hochberg (p_values : List ℚ) (ord : List ℕ) : List ℚ :=
  let n : ℕ := p_values.length
  let adjusted := (List.range n).map (fun i => p_values.getD i 0 * (n : ℚ) / (bhRanks ord i : ℚ))
  let adjSorted := ord.map (fun i => adjusted.getD i 0)
  let mono := suffixMinsBy min adjSorted
  let clipped := mono.map (fun q => min (max q 0) 1)
  (List.range n).map (fun i => clipped.getD (ord.indexOf i) 0)

/-- Characterizes `ord` as a possible output of `np.argsort p_values`: a permutation of
`0, ..., n-1` along which the p-values are non-decreasing. The tie order is
deliberately unconstrained, matching the unspecified tie behaviour of the
default (quicksort) `np.argsort`. -/
def IsArgsort (p_values : List ℚ) (ord : List ℕ) : Prop :=
  ord.Perm (List.range p_values.length) ∧
  (ord.map (fun i => p_values.getD i 0)).Pairwise (· ≤ ·)

instance (p : List ℚ) (ord : List ℕ) : Decidable (IsArgsort p ord) := by
  unfold IsArgsort; infer_instance

/-- The candidate adjusted values in rank order: position `j` (rank `j + 1`)
holds `p[order[j]] * n / (j + 1)`. Under `IsArgsort` this is exactly the
`adjusted[order]` array of line 18 (see `bh_at_rank`). -/
def bhSortedCands (ps : List ℚ) (ord : List ℕ) : List ℚ :=
  (List.range ord.length).map
    (fun j => ps.getD (ord.getD j 0) 0 * (ps.length : ℚ) / ((j + 1 : ℕ) : ℚ))

/-- NaN-propagating binary minimum: `np.minimum` returns NaN whenever either
argument is NaN. -/
def minF (x y : Option ℚ) : Option ℚ :=
  match x, y with
  | some a, some b => some (min a b)
  | _, _ => none

/-- The correction exactly as the engine invokes it at line 85: on IEEE
doubles that may be NaN (`none`). Same steps as `benjamini_hochberg`; each
arithmetic step propagates NaN as numpy does (`np.clip` of NaN is NaN). -/
def benjamini_hochberg_f (p_values : List (Option ℚ)) (ord : List ℕ) : List (Option ℚ) :=
  let n : ℕ := p_values.length
  let adjusted := (List.range n).map (fun i =>
    (p_values.getD i none).map (fun p => p * (n : ℚ) / (bhRanks ord i : ℚ)))
  let adjSorted := ord.map (fun i => adjusted.getD i none)
  let mono := suffixMinsBy minF adjSorted
  let clipped := mono.map (Option.map (fun q => min (max q 0) 1))
  (List.range n).map (fun i => clipped.getD (ord.indexOf i) none)

/-- Mean of a list of doubles, as `np.mean`: sum divided by length. -/
def qmean (l : List ℚ) : ℚ := l.sum / (l.length : ℚ)

/-- Sample variance with `ddof = 1`, as used inside `scipy.stats.ttest_ind`. -/
def sampleVar (l : List ℚ) : ℚ :=
  (l.map (fun x => (x - qmean l) ^ 2)).sum / ((l.length : ℚ) - 1)

/-- The `scipy.stats.ttest_ind(a, b, equal_var=False)` p-value (line 68 of
`src/bin/differential_expression.py`), with NaN modelled as `none`:
- a group of fewer than two samples has NaN `ddof = 1` variance, so the
  statistic and p-value are NaN;
- when the squared denominator `d2 = va/na + vb/nb` is zero (both sample
  variances zero), the statistic is `0/0 = NaN` if the means agree
  (p-value NaN) and `±inf` otherwise (`sf` of infinity is zero, p-value 0);
- otherwise the p-value is `2 * sf(|t|, df)`, represented through the
  parameter `tsf` applied to the rational numbers `t ^ 2` and `df`. -/
def ttest_ind (tsf : ℚ → ℚ → ℚ) (a b : List ℚ) : Option ℚ :=
  if a.length < 2 ∨ b.length < 2 then none
  else
    let na : ℚ := a.length
    let nb : ℚ := b.length
    let va := sampleVar a
    let vb := sampleVar b
    let d2 := va / na + vb / nb
    if d2 = 0 then
      if qmean a = qmean b then none else some 0
    else
      let df := d2 ^ 2 / ((va / na) ^ 2 / (na - 1) + (vb / nb) ^ 2 / (nb - 1))
      some (2 * tsf ((qmean a - qmean b) ^ 2 / d2) df)

/-- Count (or normalized) matrix as read from the CSV: the `gene_id` column
(first component of each row) plus one named column per sample. The schema
checks of both scripts (a `gene_id` column exists; metadata has `sample_id`
and `condition` columns) hold by construction of the structured inputs. -/
structure CountsTable where
  samples : List String
  rows : List (String × List ℚ)
deriving DecidableEq

/-- One record of the engine loop body, lines 74-82 of
`src/bin/differential_expression.py` (`mean_a` is emitted under the column
name cond_a + "_mean" and `mean_b` under cond_b + "_mean"). -/
structure GeneRecord where
  gene_id : String
  mean_a : ℚ
  mean_b : ℚ
  log2_fc : ℚ
  p_value : Option ℚ
deriving DecidableEq

/-- Failure signals of the engine, named as in the spec taxonomy:
`unsupportedDesign` is the `ValueError` of line 46, `missingSamples` the
`ValueError` of line 56 (carrying the complete list of absent samples that
the message joins with commas), and `keyError` the pandas `KeyError` raised
by column selection on a frame lacking that column. -/
inductive EngineError where
  | unsupportedDesign : EngineError
  | missingSamples : List String → EngineError
  | keyError : String → EngineError
deriving DecidableEq

/-- Engine result: the two condition labels (in the roles cond_a, cond_b)
and the table rows in input gene order, each with its FDR-adjusted p-value
(the `p_adj` column of line 85), before the final `sort_values` emission. -/
structure EngineOutput where
  cond_a : String
  cond_b : String
  table : List (GeneRecord × Option ℚ)
deriving DecidableEq

/-- Line 49 or 50, `metadata.loc[metadata["condition"] == c, "sample_id"].tolist()`:
sample ids of the rows carrying condition `c`, in metadata row order. -/
def samplesOf (metadata : List (String × String)) (c : String) : List String :=
  (metadata.filter (fun r => r.2 == c)).map (fun r => r.1)

/-- Column selection `matrix[sel]` restricted to one gene row: the value of each selected
sample column (columns are selected by name; `gene_id` is a unique key per
the data model, and sample columns are unique, so `indexOf` is the column). -/
def rowValues (samples : List String) (row : List ℚ) (sel : List String) : List ℚ :=
  sel.map (fun s => row.getD (samples.indexOf s) 0)

/-- Loop body of lines 63-82: per-gene means, fold change and raw p-value. -/
def geneRecord (tsf : ℚ → ℚ → ℚ) (g : String) (a b : List ℚ) : GeneRecord :=
  { gene_id := g, mean_a := qmean a, mean_b := qmean b,
    log2_fc := qmean a - qmean b, p_value := ttest_ind tsf a b }

/-- Lines 48-85 of `src/bin/differential_expression.py`, parameterized over
which condition label plays the role of `cond_a` and which of `cond_b`:
group the samples, fail with the collected list `missing_a + missing_b`
when any requested sample is not a column, compute the per-gene records,
then the `p_adj` column. `pandas.DataFrame.from_records []` yields a frame
with no columns at all, so the `df["p_value"]` access of line 85 raises
`KeyError` when there are zero genes. -/
def engineWithConds (tsf : ℚ → ℚ → ℚ) (ord : List ℕ) (counts : CountsTable)
    (metadata : List (String × String)) (ca cb : String) : Except EngineError EngineOutput :=
  let samples_a := samplesOf metadata ca
  let samples_b := samplesOf metadata cb
  let missing_a := samples_a.filter (fun s => !counts.samples.contains s)
  let missing_b := samples_b.filter (fun s => !counts.samples.contains s)
  if ¬ missing_a.isEmpty ∨ ¬ missing_b.isEmpty then
    .error (.missingSamples (missing_a ++ missing_b))
  else
    let records := counts.rows.map (fun r =>
      geneRecord tsf r.1 (rowValues counts.samples r.2 samples_a)
        (rowValues counts.samples r.2 samples_b))
    if records.isEmpty then .error (.keyError "p_value")
    else
      let padj := benjamini_hochberg_f (records.map (fun r => r.p_value)) ord
      .ok { cond_a := ca, cond_b := cb, table := records.zip padj }

/-- The behaviour of `pandas.Series.unique`: the distinct values in order of first appearance. -/
def uniqueInOrder (l : List String) : List String :=
  l.foldl (fun acc x => if x ∈ acc then acc else acc ++ [x]) []

/-- Lines 44-85 of `src/bin/differential_expression.py` (`main` up to the
final sort): take the distinct condition labels in order of first
appearance, fail with `UnsupportedDesignError` unless there are exactly
two, then run the two-group computation with the first label as `cond_a`. -/
def engineRun (tsf : ℚ → ℚ → ℚ) (ord : List ℕ) (counts : CountsTable)
    (metadata : List (String × String)) : Except EngineError EngineOutput :=
  let conditions := uniqueInOrder (metadata.map (fun r => r.2))
  if conditions.length = 2 then
    engineWithConds tsf ord counts metadata (conditions.getD 0 "") (conditions.getD 1 "")
  else .error .unsupportedDesign

/-- Ascending order on the raw p-value sort key, as `sort_values` orders
doubles with the default `na_position="last"`: NaN keys sort after every
number and tie with each other. -/
def pvalLE : Option ℚ → Option ℚ → Prop
  | some a, some b => a ≤ b
  | _, none => True
  | none, some _ => False

instance (x y : Option ℚ) : Decidable (pvalLE x y) :=
  match x, y with
  | some a, some b => inferInstanceAs (Decidable (a ≤ b))
  | some _, none => inferInstanceAs (Decidable True)
  | none, none => inferInstanceAs (Decidable True)
  | none, some _ => inferInstanceAs (Decidable False)

/-- Row comparison used by `df.sort_values("p_value")`: only the raw
p-value column is a sort key. -/
def rowLE (r r' : GeneRecord × Option ℚ) : Prop := pvalLE r.1.p_value r'.1.p_value

instance (r r' : GeneRecord × Option ℚ) : Decidable (rowLE r r') :=
  inferInstanceAs (Decidable (pvalLE r.1.p_value r'.1.p_value))

/-- Contract of `df.sort_values("p_value", inplace=True)` (line 86) with the
default `kind="quicksort"`: the emitted table is some permutation of the
rows that is non-decreasing in the raw p-value key. pandas documents that
only `mergesort`/`stable` are stable kinds, so the order among rows with
exactly equal keys is an unspecified implementation detail, and this
relation deliberately does not constrain it. -/
def IsSortValuesOutput (t out : List (GeneRecord × Option ℚ)) : Prop :=
  out.Perm t ∧ out.Pairwise rowLE

instance (t out : List (GeneRecord × Option ℚ)) : Decidable (IsSortValuesOutput t out) := by
  unfold IsSortValuesOutput; infer_instance

/-- IEEE double values produced by the normalizer: finite (exact rational),
signed infinity, or NaN. -/
inductive FVal where
  | fin (q : ℚ)
  | inf
  | ninf
  | nan
deriving DecidableEq

/-- IEEE division of two finite doubles: `0/0` is NaN, `x/0` is a signed
infinity (column sums of the normalizer are sums of CSV values, hence
positive zeros), and otherwise the quotient is finite. -/
def fdiv (x y : ℚ) : FVal :=
  if y = 0 then (if x = 0 then .nan else if 0 < x then .inf else .ninf) else .fin (x / y)

/-- Multiplication of a double by the positive constant 1,000,000. -/
def fscaleCPM : FVal → FVal
  | .fin q => .fin (q * 1000000)
  | .inf => .inf
  | .ninf => .ninf
  | .nan => .nan

/-- Addition of 1 to a double. -/
def faddOne : FVal → FVal
  | .fin q => .fin (q + 1)
  | .inf => .inf
  | .ninf => .ninf
  | .nan => .nan

/-- Elementwise `np.log2` on a double: NaN maps to NaN, `+inf` to `+inf`, zero to
`-inf`, negatives (including `-inf`) to NaN; on positive finite values the
(irrational) base-2 logarithm is represented through the parameter `l2`,
on whose values no claim below depends. -/
def flog2 (l2 : ℚ → ℚ) : FVal → FVal
  | .nan => .nan
  | .inf => .inf
  | .ninf => .nan
  | .fin q => if 0 < q then .fin (l2 q) else if q = 0 then .ninf else .nan

/-- The function `log2_cpm` from `src/bin/preprocess_counts.py` lines 9-12: divide each
entry by its column sum (`counts.div(counts.sum())`), scale by one million,
add 1, take base-2 logarithm, elementwise over a gene-by-sample matrix
with `ncols` sample columns. -/
def log2_cpm (l2 : ℚ → ℚ) (rows : List (String × List ℚ)) (ncols : ℕ) :
    List (String × List FVal) :=
  let colSum : ℕ → ℚ := fun c => (rows.map (fun r => r.2.getD c 0)).sum
  rows.map (fun r => (r.1, (List.range ncols).map (fun c =>
    flog2 l2 (faddOne (fscaleCPM (fdiv (r.2.getD c 0) (colSum c)))))))

/-- Failure signal of the normalizer: the `ValueError` of line 69 of
`src/bin/preprocess_counts.py`, carrying the complete list of samples
requested by the metadata but absent from the count matrix columns. -/
inductive NormError where
  | missingSamples : List String → NormError
deriving DecidableEq

/-- The `main` of `src/bin/preprocess_counts.py` (lines 15-77) run without an
annotation table (`args.annotations = None`, so the remap of lines 40-63
is skipped); schema validation (lines 35-38) holds by construction of the
structured inputs. Collect every metadata sample id absent from the count
matrix columns and fail with the whole list; otherwise restrict and
reorder the matrix to the requested samples and normalize it. -/
def preprocessRun (l2 : ℚ → ℚ) (counts : CountsTable) (metadata : List (String × String)) :
    Except NormError (List (String × List FVal)) :=
  let sample_ids := metadata.map (fun r => r.1)
  let missing := sample_ids.filter (fun s => !counts.samples.contains s)
  if ¬ missing.isEmpty then .error (.missingSamples missing)
  else
    let selected := counts.rows.map (fun r =>
      (r.1, sample_ids.map (fun s => r.2.getD (counts.samples.indexOf s) 0)))
    .ok (log2_cpm l2 selected sample_ids.length)

/-- Transformation a per-gene record undergoes when the two condition roles
are exchanged: the two group means trade places, the fold change flips sign,
and the raw p-value is untouched (see `engine_swap_conditions`). -/
def swapRecord (r : GeneRecord) : GeneRecord :=
  { gene_id := r.gene_id, mean_a := r.mean_b, mean_b := r.mean_a,
    log2_fc := -r.log2_fc, p_value := r.p_value }

/-- The distinct condition labels in first-appearance order (line 44). -/
def engineConds (metadata : List (String × String)) : List String :=
  uniqueInOrder (metadata.map (fun r => r.2))

/-- All samples the engine requests from the matrix: group A samples followed
by group B samples (lines 49-50). -/
def engineRequested (metadata : List (String × String)) : List String :=
  samplesOf metadata ((engineConds metadata).getD 0 "")
    ++ samplesOf metadata ((engineConds metadata).getD 1 "")

instance {ε α : Type} [DecidableEq ε] [DecidableEq α] : DecidableEq (Except ε α) :=
  fun x y =>
  match x, y with
  | .ok a, .ok b =>
    if h : a = b then .isTrue (by rw [h]) else .isFalse (fun hc => h (Except.ok.inj hc))
  | .error a, .error b =>
    if h : a = b then .isTrue (by rw [h]) else .isFalse (fun hc => h (Except.error.inj hc))
  | .ok _, .error _ => .isFalse (fun hc => Except.noConfusion hc)
  | .error _, .ok _ => .isFalse (fun hc => Except.noConfusion hc)

instance : IsTotal (GeneRecord × Option ℚ) rowLE :=
  ⟨fun a b => by
    unfold rowLE pvalLE
    rcases a.1.p_value with - | x <;> rcases b.1.p_value with - | y <;> simp
    exact le_total x y⟩

instance : IsTrans (GeneRecord × Option ℚ) rowLE :=
  ⟨fun a b c => by
    unfold rowLE pvalLE
    rcases a.1.p_value with - | x <;> rcases b.1.p_value with - | y <;>
      rcases c.1.p_value with - | z <;> simp
    exact le_trans⟩

-- ===================================================================
-- Helper lemmas
-- ===================================================================

theorem suffixMinsBy_length {α : Type} (m : α → α → α) (l : List α) :
    (suffixMinsBy m l).length = l.length := by
  induction l with
  | nil => rfl
  | cons x xs ih =>
    simp only [suffixMinsBy]
    split
    · rename_i h
      rw [h] at ih
      simp only [List.length_nil] at ih
      simp [← ih]
    · rename_i y r h
      rw [h] at ih
      simp only [List.length_cons] at ih ⊢
      omega

theorem suffixMins_getD (l : List ℚ) (j : ℕ) (h : j < l.length) :
    (((suffixMinsBy min l).getD j 0 : ℚ) : WithTop ℚ) = (l.drop j).minimum := by
  induction l generalizing j with
  | nil => simp at h
  | cons x xs ih =>
    simp only [suffixMinsBy]
    split
    · rename_i hnil
      have hlen := suffixMinsBy_length min xs
      rw [hnil] at hlen
      have hxs : xs = [] := List.eq_nil_of_length_eq_zero hlen.symm
      subst hxs
      simp at h
      subst h
      simp [List.minimum_cons]
    · rename_i y r heq
      cases j with
      | zero =>
        simp only [List.getD_cons_zero, List.drop_zero, List.minimum_cons]
        have hxs : 0 < xs.length := by
          have hlen := suffixMinsBy_length min xs
          rw [heq] at hlen
          simp at hlen
          omega
        have h0 := ih 0 hxs
        rw [heq] at h0
        simp only [List.getD_cons_zero, List.drop_zero] at h0
        rw [← h0]
        simp [WithTop.coe_min]
      | succ j' =>
        simp only [List.getD_cons_succ, List.drop_succ_cons]
        simp at h
        have h' := ih j' (by omega)
        rw [heq] at h'
        simpa using h'

theorem minimum_le_minimum_of_sublist {l l' : List ℚ} (h : List.Sublist l' l) :
    l.minimum ≤ l'.minimum :=
  List.le_minimum_of_forall_le (fun _ ha => List.minimum_le_of_mem' (h.subset ha))

theorem IsArgsort.length_eq {ps : List ℚ} {ord : List ℕ} (h : IsArgsort ps ord) :
    ord.length = ps.length := by
  obtain ⟨hp, -⟩ := h
  simpa using hp.length_eq

theorem IsArgsort.nodup {ps : List ℚ} {ord : List ℕ} (h : IsArgsort ps ord) :
    ord.Nodup := by
  obtain ⟨hp, -⟩ := h
  exact hp.nodup_iff.mpr (List.nodup_range _)

theorem IsArgsort.mem_lt {ps : List ℚ} {ord : List ℕ} (h : IsArgsort ps ord)
    {i : ℕ} (hi : i ∈ ord) : i < ps.length := by
  obtain ⟨hp, -⟩ := h
  simpa using hp.mem_iff.mp hi

theorem IsArgsort.sorted_le {ps : List ℚ} {ord : List ℕ} (h : IsArgsort ps ord)
    {t t' : ℕ} (htt : t ≤ t') (ht' : t' < ord.length) :
    ps.getD (ord.getD t 0) 0 ≤ ps.getD (ord.getD t' 0) 0 := by
  obtain ⟨-, hp⟩ := h
  rcases eq_or_lt_of_le htt with rfl | hlt
  · exact le_refl _
  · have ht : t < ord.length := lt_trans hlt ht'
    have hmap := List.pairwise_iff_getElem.mp hp t t'
      (by simpa using ht) (by simpa using ht') hlt
    simpa [List.getD_eq_getElem, ht, ht'] using hmap

theorem bhSortedCands_length (ps : List ℚ) (ord : List ℕ) :
    (bhSortedCands ps ord).length = ord.length := by
  simp [bhSortedCands]

theorem bhSortedCands_getD (ps : List ℚ) (ord : List ℕ) {t : ℕ} (ht : t < ord.length) :
    (bhSortedCands ps ord).getD t 0
      = ps.getD (ord.getD t 0) 0 * (ps.length : ℚ) / ((t + 1 : ℕ) : ℚ) := by
  rw [List.getD_eq_getElem _ _ (by simpa [bhSortedCands] using ht)]
  simp [bhSortedCands]

/-- The value `benjamini_hochberg` assigns to the gene at rank `j + 1` is the
clipped suffix minimum (from rank `j + 1` up to rank `n`) of the candidate
values `p * n / rank`. -/
theorem bh_at_rank (ps : List ℚ) (ord : List ℕ) (h : IsArgsort ps ord)
    (j : ℕ) (hj : j < ord.length) :
    (benjamini_hochberg ps ord).getD (ord.getD j 0) 0
      = min (max ((suffixMinsBy min (bhSortedCands ps ord)).getD j 0) 0) 1 := by
  have hlen := h.length_eq
  have hjget : ord.getD j 0 = ord[j] := List.getD_eq_getElem _ _ hj
  have hmem : ord[j] ∈ ord := List.getElem_mem _
  have hlt : ord[j] < ps.length := h.mem_lt hmem
  -- the adjusted[order] array of line 18 is bhSortedCands
  have hadj : (ord.map fun i =>
      ((List.range ps.length).map fun i =>
        ps.getD i 0 * (ps.length : ℚ) / (bhRanks ord i : ℚ)).getD i 0)
      = bhSortedCands ps ord := by
    apply List.ext_getElem
    · simp [bhSortedCands]
    · intro t ht1 ht2
      have hto : t < ord.length := by simpa using ht1
      have hot : ord[t] ∈ ord := List.getElem_mem _
      have hotlt : ord[t] < ps.length := h.mem_lt hot
      have hrank : bhRanks ord ord[t] = t + 1 := by
        unfold bhRanks
        rw [List.indexOf_getElem h.nodup t hto]
      simp only [List.getElem_map, bhSortedCands, List.getElem_range]
      rw [List.getD_eq_getElem _ _ (by simpa using hotlt)]
      simp only [List.getElem_map, List.getElem_range, hrank]
      rw [List.getD_eq_getElem _ _ hto]
  simp only [benjamini_hochberg]
  rw [List.getD_eq_getElem _ _ (by rw [hjget]; simpa using hlt)]
  simp only [List.getElem_map, List.getElem_range]
  have hidx : ord.indexOf (ord.getD j 0) = j := by
    rw [hjget]
    exact List.indexOf_getElem h.nodup j hj
  rw [hidx, hadj]
  have hjs : j < (suffixMinsBy min (bhSortedCands ps ord)).length := by
    rw [suffixMinsBy_length, bhSortedCands_length]
    exact hj
  rw [List.getD_eq_getElem _ _ (by simpa using hjs)]
  simp only [List.getElem_map]
  rw [List.getD_eq_getElem _ _ hjs]

theorem bh_suffix_mono (ps : List ℚ) (ord : List ℕ) (j j' : ℕ) (hjj : j ≤ j')
    (hj' : j' < ord.length) :
    (suffixMinsBy min (bhSortedCands ps ord)).getD j 0
      ≤ (suffixMinsBy min (bhSortedCands ps ord)).getD j' 0 := by
  have h1 := suffixMins_getD (bhSortedCands ps ord) j (by rw [bhSortedCands_length]; omega)
  have h2 := suffixMins_getD (bhSortedCands ps ord) j' (by rw [bhSortedCands_length]; exact hj')
  rw [← WithTop.coe_le_coe, h1, h2]
  apply minimum_le_minimum_of_sublist
  have hdd : (bhSortedCands ps ord).drop j' = ((bhSortedCands ps ord).drop j).drop (j' - j) := by
    rw [List.drop_drop]
    congr 1
    omega
  rw [hdd]
  exact List.drop_sublist _ _

-- ===================================================================
-- Claim theorems
-- ===================================================================

/-- C1: for every list of raw p-values given to the FDR correction with ranks
assigned by ascending raw p-value, the adjusted p-values (candidates
`p * n / k` followed by a cumulative minimum from the largest rank down) are
non-decreasing in rank: the value assigned to the gene of rank `j + 1` is at
most the value assigned to the gene of rank `j' + 1` whenever `j ≤ j'`. -/
theorem bh_adjusted_monotone_in_rank (ps : List ℚ) (ord : List ℕ) (h : IsArgsort ps ord)
    {j j' : ℕ} (hjj : j ≤ j') (hj' : j' < ps.length) :
    (benjamini_hochberg ps ord).getD (ord.getD j 0) 0
      ≤ (benjamini_hochberg ps ord).getD (ord.getD j' 0) 0 := by
  have hlen := h.length_eq
  have hj'o : j' < ord.length := by omega
  have hjo : j < ord.length := by omega
  rw [bh_at_rank ps ord h j hjo, bh_at_rank ps ord h j' hj'o]
  exact min_le_min (max_le_max (bh_suffix_mono ps ord j j' hjj hj'o) (le_refl 0)) (le_refl 1)

theorem bh_adjusted_monotone_in_rank_witness :
    IsArgsort [4/100, 1/100, 3/100] [1, 2, 0] ∧
    (benjamini_hochberg [4/100, 1/100, 3/100] [1, 2, 0]).getD ([1, 2, 0].getD 0 0) 0
      ≤ (benjamini_hochberg [4/100, 1/100, 3/100] [1, 2, 0]).getD ([1, 2, 0].getD 2 0) 0 :=
  ⟨by decide, bh_adjusted_monotone_in_rank _ _ (by decide) (by omega) (by decide)⟩

theorem IsArgsort.indexOf_lt {ps : List ℚ} {ord : List ℕ} (h : IsArgsort ps ord)
    {i : ℕ} (hi : i < ps.length) : ord.indexOf i < ord.length := by
  obtain ⟨hp, -⟩ := h
  exact List.indexOf_lt_length.mpr (hp.mem_iff.mpr (by simpa using hi))

theorem IsArgsort.getD_indexOf {ps : List ℚ} {ord : List ℕ} (h : IsArgsort ps ord)
    {i : ℕ} (hi : i < ps.length) : ord.getD (ord.indexOf i) 0 = i := by
  rw [List.getD_eq_getElem _ _ (h.indexOf_lt hi)]
  exact List.getElem_indexOf _

/-- The value `benjamini_hochberg` assigns to input position `i` is the clipped
suffix minimum of the rank-ordered candidates, taken from the rank of `i`. -/
theorem bh_result_eq (ps : List ℚ) (ord : List ℕ) (h : IsArgsort ps ord)
    {i : ℕ} (hi : i < ps.length) :
    (benjamini_hochberg ps ord).getD i 0
      = min (max ((suffixMinsBy min (bhSortedCands ps ord)).getD (ord.indexOf i) 0) 0) 1 := by
  have hj := h.indexOf_lt hi
  have hr := bh_at_rank ps ord h (ord.indexOf i) hj
  rwa [h.getD_indexOf hi] at hr

theorem getD_mem_drop {l : List ℚ} {j t : ℕ} (hj : j ≤ t) (ht : t < l.length) :
    l.getD t 0 ∈ l.drop j := by
  have hlt : t - j < (l.drop j).length := by
    simp only [List.length_drop]
    omega
  have hgd : (l.drop j)[t - j] = l[t] := by
    rw [List.getElem_drop l]
    congr 1
    omega
  rw [List.getD_eq_getElem _ _ ht, ← hgd]
  exact List.getElem_mem _

theorem mem_drop_getD {l : List ℚ} {j : ℕ} {b : ℚ} (hb : b ∈ l.drop j) :
    ∃ t, j ≤ t ∧ t < l.length ∧ l.getD t 0 = b := by
  obtain ⟨t', ht', hbe⟩ := List.mem_iff_getElem.mp hb
  have hlen : (l.drop j).length = l.length - j := List.length_drop _ _
  refine ⟨j + t', by omega, by omega, ?_⟩
  rw [List.getD_eq_getElem _ _ (by omega)]
  rw [← List.getElem_drop l]
  exact hbe

theorem bh_cand_ge (ps : List ℚ) (ord : List ℕ) (h : IsArgsort ps ord)
    {t : ℕ} (ht : t < ord.length) (hp : 0 ≤ ps.getD (ord.getD t 0) 0) :
    ps.getD (ord.getD t 0) 0 ≤ (bhSortedCands ps ord).getD t 0 := by
  rw [bhSortedCands_getD ps ord ht, mul_div_assoc]
  apply le_mul_of_one_le_right hp
  rw [one_le_div (by positivity)]
  have hlen := h.length_eq
  exact_mod_cast Nat.cast_le.mpr (by omega : t + 1 ≤ ps.length)

theorem bh_cand_last (ps : List ℚ) (ord : List ℕ) (h : IsArgsort ps ord)
    (hne : ord.length ≠ 0) :
    (bhSortedCands ps ord).getD (ord.length - 1) 0
      = ps.getD (ord.getD (ord.length - 1) 0) 0 := by
  rw [bhSortedCands_getD ps ord (by omega)]
  have hlen := h.length_eq
  have he : (ord.length - 1 + 1 : ℕ) = ps.length := by omega
  rw [he, mul_div_assoc,
    div_self (by exact_mod_cast (by omega : ps.length ≠ 0)), mul_one]

/-- C8: for every non-empty input of valid p-values to the FDR correction, the
position holding the single smallest raw p-value gets an adjusted value of at
most `p * n`, and every position holding the largest raw p-value gets an
adjusted value exactly equal to its own raw p-value (rank `n` has factor
`n / n = 1`, and the cumulative minimum starts there). -/
theorem bh_boundary (ps : List ℚ) (ord : List ℕ) (h : IsArgsort ps ord)
    (hrange : ∀ p ∈ ps, 0 ≤ p ∧ p ≤ 1) :
    (∀ i, i < ps.length → (∀ k, k < ps.length → k ≠ i → ps.getD i 0 < ps.getD k 0) →
      (benjamini_hochberg ps ord).getD i 0 ≤ ps.getD i 0 * (ps.length : ℚ)) ∧
    (∀ i, i < ps.length → (∀ k, k < ps.length → ps.getD k 0 ≤ ps.getD i 0) →
      (benjamini_hochberg ps ord).getD i 0 = ps.getD i 0) := by
  have hlen := h.length_eq
  have hnn : ∀ k, k < ps.length → 0 ≤ ps.getD k 0 := by
    intro k hk
    rw [List.getD_eq_getElem _ _ hk]
    exact (hrange _ (List.getElem_mem _)).1
  have hle1 : ∀ k, k < ps.length → ps.getD k 0 ≤ 1 := by
    intro k hk
    rw [List.getD_eq_getElem _ _ hk]
    exact (hrange _ (List.getElem_mem _)).2
  have hordlt : ∀ t, t < ord.length → ord.getD t 0 < ps.length := by
    intro t ht
    rw [List.getD_eq_getElem _ _ ht]
    exact h.mem_lt (List.getElem_mem _)
  constructor
  · -- single smallest raw p-value
    intro i hi hmin
    have hj := h.indexOf_lt hi
    have hji := h.getD_indexOf hi
    -- the unique minimizer sits at rank 1
    have hj0 : ord.indexOf i = 0 := by
      by_contra hne
      have h0 : 0 < ord.length := by omega
      have hk := hordlt 0 h0
      have hki : ord.getD 0 0 ≠ i := by
        intro he
        apply hne
        have : ord.getD 0 0 = ord[0] := List.getD_eq_getElem _ _ h0
        rw [this] at he
        have := List.indexOf_getElem h.nodup 0 h0
        rw [he] at this
        omega
      have hlt := hmin _ hk hki
      have hle := h.sorted_le (by omega : 0 ≤ ord.indexOf i) hj
      rw [hji] at hle
      exact absurd hle (not_le.mpr hlt)
    rw [bh_result_eq ps ord h hi, hj0]
    have h0 : 0 < ord.length := by omega
    have hc0 : (bhSortedCands ps ord).getD 0 0 = ps.getD i 0 * (ps.length : ℚ) := by
      rw [bhSortedCands_getD ps ord h0]
      have hji0 : ord.getD 0 0 = i := by rw [hj0] at hji; exact hji
      rw [hji0]
      norm_num
    have hv := suffixMins_getD (bhSortedCands ps ord) 0
      (by rw [bhSortedCands_length]; exact h0)
    have hmem : (bhSortedCands ps ord).getD 0 0 ∈ (bhSortedCands ps ord).drop 0 :=
      getD_mem_drop (le_refl 0) (by rw [bhSortedCands_length]; exact h0)
    have hminle := List.minimum_le_of_mem' hmem
    rw [← hv] at hminle
    have hvle : (suffixMinsBy min (bhSortedCands ps ord)).getD 0 0
        ≤ ps.getD i 0 * (ps.length : ℚ) := by
      have := WithTop.coe_le_coe.mp hminle
      rwa [hc0] at this
    have hprod : (0:ℚ) ≤ ps.getD i 0 * (ps.length : ℚ) :=
      mul_nonneg (hnn i hi) (by positivity)
    calc min (max ((suffixMinsBy min (bhSortedCands ps ord)).getD 0 0) 0) 1
        ≤ max ((suffixMinsBy min (bhSortedCands ps ord)).getD 0 0) 0 := min_le_left _ _
      _ ≤ max (ps.getD i 0 * (ps.length : ℚ)) 0 := max_le_max hvle (le_refl 0)
      _ = ps.getD i 0 * (ps.length : ℚ) := max_eq_left hprod
  · -- largest raw p-value
    intro i hi hmax
    have hj := h.indexOf_lt hi
    have hji := h.getD_indexOf hi
    have hne0 : ord.length ≠ 0 := by omega
    rw [bh_result_eq ps ord h hi]
    have hv := suffixMins_getD (bhSortedCands ps ord) (ord.indexOf i)
      (by rw [bhSortedCands_length]; exact hj)
    -- the candidate at the last rank is exactly the maximal raw p-value
    have hlast : (bhSortedCands ps ord).getD (ord.length - 1) 0 = ps.getD i 0 := by
      rw [bh_cand_last ps ord h hne0]
      apply le_antisymm
      · exact hmax _ (hordlt _ (by omega))
      · have := h.sorted_le (by omega : ord.indexOf i ≤ ord.length - 1) (by omega)
        rwa [hji] at this
    have hmineq : ((bhSortedCands ps ord).drop (ord.indexOf i)).minimum
        = ((ps.getD i 0 : ℚ) : WithTop ℚ) := by
      apply le_antisymm
      · have hmem : (bhSortedCands ps ord).getD (ord.length - 1) 0
            ∈ (bhSortedCands ps ord).drop (ord.indexOf i) :=
          getD_mem_drop (by omega) (by rw [bhSortedCands_length]; omega)
        have := List.minimum_le_of_mem' hmem
        rwa [hlast] at this
      · apply List.le_minimum_of_forall_le
        intro b hb
        obtain ⟨t, hjt, htl, hbe⟩ := mem_drop_getD hb
        rw [bhSortedCands_length] at htl
        have hchain : ps.getD i 0 ≤ b := by
          calc ps.getD i 0 ≤ ps.getD (ord.getD t 0) 0 := by
                have := h.sorted_le hjt htl
                rwa [hji] at this
            _ ≤ (bhSortedCands ps ord).getD t 0 :=
                bh_cand_ge ps ord h htl (hnn _ (hordlt _ htl))
            _ = b := hbe
        exact WithTop.coe_le_coe.mpr hchain
    rw [hmineq] at hv
    have hveq : (suffixMinsBy min (bhSortedCands ps ord)).getD (ord.indexOf i) 0
        = ps.getD i 0 := WithTop.coe_inj.mp hv
    rw [hveq, max_eq_left (hnn i hi), min_eq_left (hle1 i hi)]

theorem bh_boundary_witness :
    IsArgsort [4/100, 1/100, 3/100] [1, 2, 0] ∧
    (∀ p ∈ ([4/100, 1/100, 3/100] : List ℚ), 0 ≤ p ∧ p ≤ 1) ∧
    (benjamini_hochberg [4/100, 1/100, 3/100] [1, 2, 0]).getD 1 0
      ≤ (1/100 : ℚ) * 3 ∧
    (benjamini_hochberg [4/100, 1/100, 3/100] [1, 2, 0]).getD 0 0 = 4/100 := by
  refine ⟨by decide, by decide, ?_, ?_⟩
  · have := (bh_boundary [4/100, 1/100, 3/100] [1, 2, 0] (by decide) (by decide)).1
      1 (by decide) (by decide)
    simpa using this
  · have := (bh_boundary [4/100, 1/100, 3/100] [1, 2, 0] (by decide) (by decide)).2
      0 (by decide) (by decide)
    simpa using this

theorem bh_tie_aux (ps : List ℚ) (ord : List ℕ) (h : IsArgsort ps ord)
    {i i' : ℕ} (hi : i < ps.length) (hi' : i' < ps.length)
    (heq : ps.getD i 0 = ps.getD i' 0) (hjj : ord.indexOf i ≤ ord.indexOf i') :
    (benjamini_hochberg ps ord).getD i 0 = (benjamini_hochberg ps ord).getD i' 0 := by
  have hlen := h.length_eq
  have hj := h.indexOf_lt hi
  have hj' := h.indexOf_lt hi'
  have hji := h.getD_indexOf hi
  have hji' := h.getD_indexOf hi'
  rw [bh_result_eq ps ord h hi, bh_result_eq ps ord h hi']
  rcases le_or_lt 0 (ps.getD i 0) with hpos | hneg
  · -- nonnegative tied value: the suffix minima agree between the two ranks
    have hvv : (suffixMinsBy min (bhSortedCands ps ord)).getD (ord.indexOf i) 0
        = (suffixMinsBy min (bhSortedCands ps ord)).getD (ord.indexOf i') 0 := by
      apply le_antisymm
      · exact bh_suffix_mono ps ord _ _ hjj hj'
      · have hm := suffixMins_getD (bhSortedCands ps ord) (ord.indexOf i)
          (by rw [bhSortedCands_length]; exact hj)
        have hm' := suffixMins_getD (bhSortedCands ps ord) (ord.indexOf i')
          (by rw [bhSortedCands_length]; exact hj')
        rw [← WithTop.coe_le_coe, hm, hm']
        apply List.le_minimum_of_forall_le
        intro b hb
        obtain ⟨t, hjt, htl, hbe⟩ := mem_drop_getD hb
        rw [bhSortedCands_length] at htl
        rcases le_or_lt (ord.indexOf i') t with hge | hlt
        · -- positions at or past the second rank are shared by both suffixes
          have hmem : b ∈ (bhSortedCands ps ord).drop (ord.indexOf i') := by
            rw [← hbe]
            exact getD_mem_drop hge (by rw [bhSortedCands_length]; exact htl)
          exact List.minimum_le_of_mem' hmem
        · -- positions between the two ranks carry the same tied p-value,
          -- and their candidates dominate the candidate of the second rank
          have hsand : ps.getD (ord.getD t 0) 0 = ps.getD i 0 := by
            apply le_antisymm
            · have := h.sorted_le (le_of_lt hlt) hj'
              rw [hji'] at this
              rw [heq]
              exact this
            · have := h.sorted_le hjt htl
              rwa [hji] at this
          have hcand : (bhSortedCands ps ord).getD (ord.indexOf i') 0 ≤ b := by
            rw [← hbe, bhSortedCands_getD ps ord htl, bhSortedCands_getD ps ord hj']
            rw [hsand, hji', ← heq]
            apply div_le_div_of_nonneg_left (mul_nonneg hpos (by positivity))
              (by positivity)
            exact_mod_cast Nat.cast_le.mpr (by omega : t + 1 ≤ ord.indexOf i' + 1)
          have hmem : (bhSortedCands ps ord).getD (ord.indexOf i') 0
              ∈ (bhSortedCands ps ord).drop (ord.indexOf i') :=
            getD_mem_drop (le_refl _) (by rw [bhSortedCands_length]; exact hj')
          exact le_trans (List.minimum_le_of_mem' hmem) (WithTop.coe_le_coe.mpr hcand)
    rw [hvv]
  · -- negative tied value: both suffix minima are negative, both clip to 0
    have hnegcand : ∀ {j : ℕ} (hjo : j < ord.length), ord.getD j 0 = i ∨ ord.getD j 0 = i' →
        (suffixMinsBy min (bhSortedCands ps ord)).getD j 0 < 0 := by
      intro j hjo hcase
      have hpj : ps.getD (ord.getD j 0) 0 < 0 := by
        rcases hcase with hc | hc <;> rw [hc]
        · exact hneg
        · rw [← heq]; exact hneg
      have hcand : (bhSortedCands ps ord).getD j 0 < 0 := by
        rw [bhSortedCands_getD ps ord hjo]
        apply div_neg_of_neg_of_pos
        · exact mul_neg_of_neg_of_pos hpj
            (by exact_mod_cast (by omega : 0 < ps.length))
        · positivity
      have hm := suffixMins_getD (bhSortedCands ps ord) j
        (by rw [bhSortedCands_length]; exact hjo)
      have hmem : (bhSortedCands ps ord).getD j 0 ∈ (bhSortedCands ps ord).drop j :=
        getD_mem_drop (le_refl _) (by rw [bhSortedCands_length]; exact hjo)
      have := List.minimum_le_of_mem' hmem
      rw [← hm] at this
      have hle := WithTop.coe_le_coe.mp this
      exact lt_of_le_of_lt hle hcand
    have h1 := hnegcand hj (Or.inl hji)
    have h2 := hnegcand hj' (Or.inr hji')
    rw [max_eq_right (le_of_lt h1), max_eq_right (le_of_lt h2)]

/-- C10: for every input to the FDR correction, two positions holding exactly
equal raw p-values receive exactly equal adjusted p-values, whichever of the
tied positions the argsort assigns the smaller rank. -/
theorem bh_tie_invariance (ps : List ℚ) (ord : List ℕ) (h : IsArgsort ps ord)
    {i i' : ℕ} (hi : i < ps.length) (hi' : i' < ps.length)
    (heq : ps.getD i 0 = ps.getD i' 0) :
    (benjamini_hochberg ps ord).getD i 0 = (benjamini_hochberg ps ord).getD i' 0 := by
  rcases le_total (ord.indexOf i) (ord.indexOf i') with hle | hle
  · exact bh_tie_aux ps ord h hi hi' heq hle
  · exact (bh_tie_aux ps ord h hi' hi heq.symm hle).symm

theorem bh_tie_invariance_witness :
    IsArgsort [3/10, 1/10, 3/10] [1, 0, 2] ∧
    (benjamini_hochberg [3/10, 1/10, 3/10] [1, 0, 2]).getD 0 0
      = (benjamini_hochberg [3/10, 1/10, 3/10] [1, 0, 2]).getD 2 0 :=
  ⟨by decide,
    bh_tie_invariance [3/10, 1/10, 3/10] [1, 0, 2] (by decide)
      (by decide) (by decide) (by decide)⟩

theorem qmean_const {l : List ℚ} {c : ℚ} (hl : l ≠ []) (h : ∀ x ∈ l, x = c) :
    qmean l = c := by
  have hrep : l = List.replicate l.length c := List.eq_replicate_iff.mpr ⟨rfl, h⟩
  have hn : (l.length : ℚ) ≠ 0 :=
    Nat.cast_ne_zero.mpr (by simpa [List.length_eq_zero] using hl)
  rw [qmean, hrep, List.sum_replicate, List.length_replicate, nsmul_eq_mul,
    mul_div_cancel_left₀ _ hn]

theorem sampleVar_const {l : List ℚ} {c : ℚ} (hl : l ≠ []) (h : ∀ x ∈ l, x = c) :
    sampleVar l = 0 := by
  rw [sampleVar]
  have hq := qmean_const hl h
  have hz : (l.map fun x => (x - qmean l) ^ 2) = List.replicate l.length 0 := by
    apply List.eq_replicate_iff.mpr
    refine ⟨by simp, ?_⟩
    intro y hy
    obtain ⟨x, hx, rfl⟩ := List.mem_map.mp hy
    rw [h x hx, hq]
    ring
  rw [hz, List.sum_replicate]
  simp

/-- With all values of both groups equal, both `ddof = 1` variances vanish and
the Welch statistic is `0 / 0`: scipy returns a NaN p-value. -/
theorem ttest_ind_const (tsf : ℚ → ℚ → ℚ) (a b : List ℚ) (c : ℚ)
    (ha : ∀ x ∈ a, x = c) (hb : ∀ x ∈ b, x = c) :
    ttest_ind tsf a b = none := by
  by_cases hlen : a.length < 2 ∨ b.length < 2
  · simp [ttest_ind, hlen]
  · push_neg at hlen
    have hane : a ≠ [] := by
      intro he
      rw [he] at hlen
      simp at hlen
    have hbne : b ≠ [] := by
      intro he
      rw [he] at hlen
      simp at hlen
    simp [ttest_ind, sampleVar_const hane ha, sampleVar_const hbne hb,
      qmean_const hane ha, qmean_const hbne hb, not_or, hlen]

/-- The Welch two-sample p-value is symmetric in the two groups. -/
theorem ttest_ind_symm (tsf : ℚ → ℚ → ℚ) (a b : List ℚ) :
    ttest_ind tsf a b = ttest_ind tsf b a := by
  rcases Nat.lt_or_ge a.length 2 with hla | hla
  · simp [ttest_ind, hla]
  rcases Nat.lt_or_ge b.length 2 with hlb | hlb
  · simp [ttest_ind, hlb]
  have hna : ¬(a.length < 2 ∨ b.length < 2) := by omega
  have hnb : ¬(b.length < 2 ∨ a.length < 2) := by omega
  simp only [ttest_ind, if_neg hna, if_neg hnb]
  rw [show sampleVar a / (a.length : ℚ) + sampleVar b / (b.length : ℚ)
      = sampleVar b / (b.length : ℚ) + sampleVar a / (a.length : ℚ) from add_comm _ _]
  split_ifs with h1 h2 h3 h4
  · rfl
  · exact absurd h2.symm h3
  · exact absurd h4.symm h2
  · rfl
  · rw [show (qmean a - qmean b) ^ 2 = (qmean b - qmean a) ^ 2 by ring,
      show (sampleVar a / (a.length : ℚ)) ^ 2 / ((a.length : ℚ) - 1)
          + (sampleVar b / (b.length : ℚ)) ^ 2 / ((b.length : ℚ) - 1)
        = (sampleVar b / (b.length : ℚ)) ^ 2 / ((b.length : ℚ) - 1)
          + (sampleVar a / (a.length : ℚ)) ^ 2 / ((a.length : ℚ) - 1) from add_comm _ _]

/-- C2 counterexample: a gene whose two groups both have zero variance and
identical values (every sample equals 1). The engine run succeeds, but the
emitted raw p-value for that gene is NaN (`none`), not 1.0. -/
theorem engine_degenerate_gene_nan_counterexample :
    (engineRun (fun _ _ => 0) [0] ⟨["S1", "S2", "S3", "S4"], [("G1", [1, 1, 1, 1])]⟩
        [("S1", "A"), ("S2", "A"), ("S3", "B"), ("S4", "B")]).toOption.map
      (fun out => out.table.map fun r => r.1.p_value) = some [none] := by decide

/-- C2 amended: for every gene whose two groups each have zero variance and
whose values are identical between the groups (all values equal one constant),
the engine emits a NaN raw p-value for that gene (scipy's Welch t-test is
`0 / 0` there) and does not raise; it never emits 1.0. -/
theorem geneRecord_degenerate_nan (tsf : ℚ → ℚ → ℚ) (g : String) (a b : List ℚ)
    (c : ℚ) (ha : ∀ x ∈ a, x = c) (hb : ∀ x ∈ b, x = c) :
    (geneRecord tsf g a b).p_value = none := by
  simp [geneRecord, ttest_ind_const tsf a b c ha hb]

theorem geneRecord_degenerate_nan_witness :
    (geneRecord (fun _ _ => 0) "G1" [1, 1] [1, 1]).p_value = none :=
  geneRecord_degenerate_nan (fun _ _ => 0) "G1" [1, 1] [1, 1] 1 (by decide) (by decide)

/-- C4: on a normalized matrix with zero genes (and valid two-condition
metadata) the engine does not emit an empty Result Table: the record list is
empty, `pandas.DataFrame.from_records []` has no columns, and the
`df["p_value"]` access of line 85 raises `KeyError`. The FDR correction
itself is a no-op on zero elements (second conjunct), so the failure is the
column access, not `benjamini_hochberg`. -/
theorem engine_empty_gene_set_key_error :
    engineRun (fun _ _ => 0) [] ⟨["S1", "S2"], []⟩ [("S1", "A"), ("S2", "B")]
        = .error (.keyError "p_value") ∧
    benjamini_hochberg [] [] = [] := by decide

theorem geneRecord_swap (tsf : ℚ → ℚ → ℚ) (g : String) (a b : List ℚ) :
    geneRecord tsf g b a = swapRecord (geneRecord tsf g a b) := by
  simp [geneRecord, swapRecord, ttest_ind_symm tsf b a]

/-- C9: exchanging which condition label plays role A and which plays role B
(lines 48-50 assign roles by first appearance) succeeds exactly when the
original run succeeds, and transforms every row by `swapRecord`: the two
group means trade columns, every `log2_fc` is negated, and every raw
`p_value` and every FDR-adjusted `p_adj` is unchanged. -/
theorem engine_swap_conditions (tsf : ℚ → ℚ → ℚ) (ord : List ℕ) (counts : CountsTable)
    (metadata : List (String × String)) (ca cb : String)
    (hok : ∃ out, engineWithConds tsf ord counts metadata ca cb = .ok out) :
    ∃ out out', engineWithConds tsf ord counts metadata ca cb = .ok out ∧
      engineWithConds tsf ord counts metadata cb ca = .ok out' ∧
      out.cond_a = ca ∧ out.cond_b = cb ∧ out'.cond_a = cb ∧ out'.cond_b = ca ∧
      out'.table = out.table.map (fun rec => (swapRecord rec.1, rec.2)) := by
  obtain ⟨out, hout⟩ := hok
  simp only [engineWithConds] at hout ⊢
  -- the per-gene record lists of the two runs
  have hrecswap : counts.rows.map (fun r => geneRecord tsf r.1
      (rowValues counts.samples r.2 (samplesOf metadata cb))
      (rowValues counts.samples r.2 (samplesOf metadata ca)))
    = (counts.rows.map (fun r => geneRecord tsf r.1
      (rowValues counts.samples r.2 (samplesOf metadata ca))
      (rowValues counts.samples r.2 (samplesOf metadata cb)))).map swapRecord := by
    rw [List.map_map]
    apply List.map_congr_left
    intro r _
    exact geneRecord_swap tsf r.1 _ _
  split_ifs at hout with h1 h2
  · have h1' : ¬ (¬ ((samplesOf metadata cb).filter
        (fun s => !counts.samples.contains s)).isEmpty ∨
        ¬ ((samplesOf metadata ca).filter (fun s => !counts.samples.contains s)).isEmpty) :=
      fun hc => h1 (Or.symm hc)
    rw [if_neg h1', hrecswap]
    have h2' : ¬ ((counts.rows.map (fun r => geneRecord tsf r.1
        (rowValues counts.samples r.2 (samplesOf metadata ca))
        (rowValues counts.samples r.2 (samplesOf metadata cb)))).map swapRecord).isEmpty := by
      intro hc
      apply h2
      rcases hl : counts.rows.map (fun r => geneRecord tsf r.1
        (rowValues counts.samples r.2 (samplesOf metadata ca))
        (rowValues counts.samples r.2 (samplesOf metadata cb))) with - | ⟨x, xs⟩
      · simp [hl]
      · rw [hl] at hc
        simp at hc
    rw [if_neg h2']
    rw [if_neg h1, if_neg h2]
    have hVout := Except.ok.inj hout
    subst hVout
    refine ⟨_, _, rfl, rfl, rfl, rfl, rfl, rfl, ?_⟩
    -- the p-value column is unchanged by swapRecord, hence so is p_adj
    have hpv : ((counts.rows.map (fun r => geneRecord tsf r.1
        (rowValues counts.samples r.2 (samplesOf metadata ca))
        (rowValues counts.samples r.2 (samplesOf metadata cb)))).map swapRecord).map
          (fun r => r.p_value)
        = (counts.rows.map (fun r => geneRecord tsf r.1
        (rowValues counts.samples r.2 (samplesOf metadata ca))
        (rowValues counts.samples r.2 (samplesOf metadata cb)))).map
          (fun r => r.p_value) := by
      rw [List.map_map]
      rfl
    rw [hpv, List.zip_map_left]
    rfl

theorem engine_swap_conditions_witness :
    ∃ out out', engineWithConds (fun _ _ => 0) [0]
        ⟨["S1", "S2", "S3", "S4"], [("G1", [1, 2, 3, 5])]⟩
        [("S1", "A"), ("S2", "A"), ("S3", "B"), ("S4", "B")] "A" "B" = .ok out ∧
      engineWithConds (fun _ _ => 0) [0]
        ⟨["S1", "S2", "S3", "S4"], [("G1", [1, 2, 3, 5])]⟩
        [("S1", "A"), ("S2", "A"), ("S3", "B"), ("S4", "B")] "B" "A" = .ok out' ∧
      out.cond_a = "A" ∧ out.cond_b = "B" ∧ out'.cond_a = "B" ∧ out'.cond_b = "A" ∧
      out'.table = out.table.map (fun rec => (swapRecord rec.1, rec.2)) :=
  engine_swap_conditions (fun _ _ => 0) [0]
    ⟨["S1", "S2", "S3", "S4"], [("G1", [1, 2, 3, 5])]⟩
    [("S1", "A"), ("S2", "A"), ("S3", "B"), ("S4", "B")] "A" "B" ⟨_, rfl⟩

theorem uniqueInOrder_aux_mem (l acc : List String) (x : String) :
    x ∈ l.foldl (fun acc x => if x ∈ acc then acc else acc ++ [x]) acc
      ↔ x ∈ acc ∨ x ∈ l := by
  induction l generalizing acc with
  | nil => simp
  | cons a l ih =>
    simp only [List.foldl_cons]
    rw [ih]
    by_cases hmem : a ∈ acc
    · rw [if_pos hmem]
      constructor
      · rintro (h | h)
        · exact Or.inl h
        · exact Or.inr (List.mem_cons_of_mem _ h)
      · rintro (h | h)
        · exact Or.inl h
        · rcases List.mem_cons.mp h with rfl | h
          · exact Or.inl hmem
          · exact Or.inr h
    · rw [if_neg hmem]
      simp only [List.mem_append, List.mem_cons, List.mem_singleton]
      tauto

theorem uniqueInOrder_mem (l : List String) (x : String) :
    x ∈ uniqueInOrder l ↔ x ∈ l := by
  rw [uniqueInOrder, uniqueInOrder_aux_mem]
  simp

theorem uniqueInOrder_aux_nodup (l : List String) :
    ∀ acc : List String, acc.Nodup →
      (l.foldl (fun acc x => if x ∈ acc then acc else acc ++ [x]) acc).Nodup := by
  induction l with
  | nil => intro acc h; simpa
  | cons a l ih =>
    intro acc h
    simp only [List.foldl_cons]
    apply ih
    by_cases hmem : a ∈ acc
    · simpa [hmem]
    · rw [if_neg hmem]
      rw [List.nodup_append]
      refine ⟨h, List.nodup_singleton a, ?_⟩
      intro y hy hya
      rw [List.mem_singleton] at hya
      subst hya
      exact hmem hy

theorem uniqueInOrder_nodup (l : List String) : (uniqueInOrder l).Nodup :=
  uniqueInOrder_aux_nodup l [] List.nodup_nil

theorem uniqueInOrder_length_eq_card (l : List String) :
    (uniqueInOrder l).length = l.toFinset.card := by
  have h1 : (uniqueInOrder l).toFinset = l.toFinset := by
    apply Finset.ext
    intro x
    simp [List.mem_toFinset, uniqueInOrder_mem]
  rw [← h1]
  exact (List.toFinset_card_of_nodup (uniqueInOrder_nodup l)).symm

theorem engineWithConds_ne_unsupported (tsf : ℚ → ℚ → ℚ) (ord : List ℕ)
    (counts : CountsTable) (metadata : List (String × String)) (ca cb : String) :
    engineWithConds tsf ord counts metadata ca cb ≠ .error .unsupportedDesign := by
  intro h
  simp only [engineWithConds] at h
  split_ifs at h <;> simp at h

/-- C6: the engine fails with `UnsupportedDesignError`, before any per-gene
computation, exactly when the number of distinct condition values in the
metadata differs from two. -/
theorem engine_two_conditions_iff (tsf : ℚ → ℚ → ℚ) (ord : List ℕ)
    (counts : CountsTable) (metadata : List (String × String)) :
    engineRun tsf ord counts metadata = .error .unsupportedDesign
      ↔ (metadata.map (fun r => r.2)).toFinset.card ≠ 2 := by
  have hcard := uniqueInOrder_length_eq_card (metadata.map (fun r => r.2))
  simp only [engineRun]
  split_ifs with hc
  · constructor
    · intro h
      exact absurd h (engineWithConds_ne_unsupported tsf ord counts metadata _ _)
    · intro h
      exact absurd (by rw [← hcard]; exact hc) h
  · constructor
    · intro _
      rw [← hcard]
      exact hc
    · intro _
      rfl

theorem engineWithConds_missing (tsf : ℚ → ℚ → ℚ) (ord : List ℕ) (counts : CountsTable)
    (metadata : List (String × String)) (ca cb : String) :
    ((∀ s ∈ samplesOf metadata ca ++ samplesOf metadata cb, counts.samples.contains s) →
      ∀ m, engineWithConds tsf ord counts metadata ca cb ≠ .error (.missingSamples m)) ∧
    ((∃ s ∈ samplesOf metadata ca ++ samplesOf metadata cb, ¬ counts.samples.contains s) →
      ∃ m, engineWithConds tsf ord counts metadata ca cb = .error (.missingSamples m) ∧
        m ≠ [] ∧ ∀ s, s ∈ m ↔
          (s ∈ samplesOf metadata ca ++ samplesOf metadata cb ∧
            ¬ counts.samples.contains s)) := by
  constructor
  · intro hall m
    have hma : (samplesOf metadata ca).filter (fun s => !counts.samples.contains s) = [] := by
      rw [List.filter_eq_nil_iff]
      intro s hs
      simpa using hall s (List.mem_append.mpr (Or.inl hs))
    have hmb : (samplesOf metadata cb).filter (fun s => !counts.samples.contains s) = [] := by
      rw [List.filter_eq_nil_iff]
      intro s hs
      simpa using hall s (List.mem_append.mpr (Or.inr hs))
    simp only [engineWithConds, hma, hmb]
    split_ifs <;> simp_all
  · rintro ⟨s0, hs0mem, hs0⟩
    refine ⟨(samplesOf metadata ca).filter (fun s => !counts.samples.contains s)
      ++ (samplesOf metadata cb).filter (fun s => !counts.samples.contains s), ?_, ?_, ?_⟩
    · have hs0f : s0 ∈ (samplesOf metadata ca).filter (fun s => !counts.samples.contains s)
          ++ (samplesOf metadata cb).filter (fun s => !counts.samples.contains s) := by
        rw [← List.filter_append]
        rw [List.mem_filter]
        exact ⟨hs0mem, by simpa using hs0⟩
      simp only [engineWithConds]
      rw [if_pos]
      rcases List.mem_append.mp hs0f with hmem | hmem
      · exact Or.inl (by
          intro hc
          rw [List.isEmpty_iff] at hc
          rw [hc] at hmem
          simp at hmem)
      · exact Or.inr (by
          intro hc
          rw [List.isEmpty_iff] at hc
          rw [hc] at hmem
          simp at hmem)
    · intro hc
      have : s0 ∈ ([] : List String) := by
        rw [← hc, ← List.filter_append, List.mem_filter]
        exact ⟨hs0mem, by simpa using hs0⟩
      simp at this
    · intro s
      rw [← List.filter_append, List.mem_filter]
      simp

theorem preprocess_missing (l2 : ℚ → ℚ) (counts : CountsTable)
    (metadata : List (String × String)) :
    ((∀ s ∈ metadata.map (fun r => r.1), counts.samples.contains s) →
      ∀ m, preprocessRun l2 counts metadata ≠ .error (.missingSamples m)) ∧
    ((∃ s ∈ metadata.map (fun r => r.1), ¬ counts.samples.contains s) →
      ∃ m, preprocessRun l2 counts metadata = .error (.missingSamples m) ∧
        m ≠ [] ∧ ∀ s, s ∈ m ↔
          (s ∈ metadata.map (fun r => r.1) ∧ ¬ counts.samples.contains s)) := by
  constructor
  · intro hall m
    have hmz : (metadata.map (fun r => r.1)).filter (fun s => !counts.samples.contains s)
        = [] := by
      rw [List.filter_eq_nil_iff]
      intro s hs
      simpa using hall s hs
    simp only [preprocessRun]
    rw [hmz]
    simp
  · rintro ⟨s0, hs0mem, hs0⟩
    refine ⟨(metadata.map (fun r => r.1)).filter (fun s => !counts.samples.contains s),
      ?_, ?_, ?_⟩
    · have hs0f : s0 ∈ (metadata.map (fun r => r.1)).filter
          (fun s => !counts.samples.contains s) := by
        rw [List.mem_filter]
        exact ⟨hs0mem, by simpa using hs0⟩
      simp only [preprocessRun]
      rw [if_pos]
      intro hc
      rw [List.isEmpty_iff] at hc
      rw [hc] at hs0f
      simp at hs0f
    · intro hc
      have : s0 ∈ ([] : List String) := by
        rw [← hc, List.mem_filter]
        exact ⟨hs0mem, by simpa using hs0⟩
      simp at this
    · intro s
      rw [List.mem_filter]
      simp

/-- C5: both the normalizer and the engine collect every metadata sample id
that has no column in the matrix and fail with a `MissingSamplesError`-style
error listing exactly those samples (across both groups for the engine); when
every requested sample is present, neither fails this way. -/
theorem missing_samples_spec (tsf : ℚ → ℚ → ℚ) (ord : List ℕ) (l2 : ℚ → ℚ)
    (counts : CountsTable) (metadata : List (String × String))
    (hc : (metadata.map (fun r => r.2)).toFinset.card = 2) :
    ((∀ s ∈ engineRequested metadata, counts.samples.contains s) →
      ∀ m, engineRun tsf ord counts metadata ≠ .error (.missingSamples m)) ∧
    ((∃ s ∈ engineRequested metadata, ¬ counts.samples.contains s) →
      ∃ m, engineRun tsf ord counts metadata = .error (.missingSamples m) ∧ m ≠ [] ∧
        ∀ s, s ∈ m ↔ (s ∈ engineRequested metadata ∧ ¬ counts.samples.contains s)) ∧
    ((∀ s ∈ metadata.map (fun r => r.1), counts.samples.contains s) →
      ∀ m, preprocessRun l2 counts metadata ≠ .error (.missingSamples m)) ∧
    ((∃ s ∈ metadata.map (fun r => r.1), ¬ counts.samples.contains s) →
      ∃ m, preprocessRun l2 counts metadata = .error (.missingSamples m) ∧ m ≠ [] ∧
        ∀ s, s ∈ m ↔ (s ∈ metadata.map (fun r => r.1) ∧ ¬ counts.samples.contains s)) := by
  have hrun : engineRun tsf ord counts metadata
      = engineWithConds tsf ord counts metadata
        ((engineConds metadata).getD 0 "") ((engineConds metadata).getD 1 "") := by
    simp only [engineRun]
    rw [if_pos (by rw [uniqueInOrder_length_eq_card]; exact hc)]
    rfl
  have heng := engineWithConds_missing tsf ord counts metadata
    ((engineConds metadata).getD 0 "") ((engineConds metadata).getD 1 "")
  have hpre := preprocess_missing l2 counts metadata
  refine ⟨?_, ?_, hpre.1, hpre.2⟩
  · intro hall m
    rw [hrun]
    exact heng.1 hall m
  · intro hex
    rw [hrun]
    exact heng.2 hex

theorem missing_samples_spec_witness :
    (∃ m, engineRun (fun _ _ => (0:ℚ)) [] ⟨["S1"], [("G1", [5])]⟩
        [("S1", "A"), ("S9", "B")] = .error (.missingSamples m) ∧ m ≠ [] ∧
        ∀ s, s ∈ m ↔ (s ∈ engineRequested [("S1", "A"), ("S9", "B")] ∧
          ¬ (CountsTable.mk ["S1"] [("G1", [5])]).samples.contains s)) ∧
    (∃ m, preprocessRun (fun q => q) ⟨["S1"], [("G1", [5])]⟩
        [("S1", "A"), ("S9", "B")] = .error (.missingSamples m) ∧ m ≠ [] ∧
        ∀ s, s ∈ m ↔ (s ∈ [("S1", "A"), ("S9", "B")].map (fun r => r.1) ∧
          ¬ (CountsTable.mk ["S1"] [("G1", [5])]).samples.contains s)) := by
  have h := missing_samples_spec (fun _ _ => (0:ℚ)) [] (fun q => q)
    ⟨["S1"], [("G1", [5])]⟩ [("S1", "A"), ("S9", "B")] (by decide)
  exact ⟨h.2.1 ⟨"S9", by decide, by decide⟩, h.2.2.2 ⟨"S9", by decide, by decide⟩⟩

/-- C3 amended: line 86 sorts the Result Table ascending by raw p-value with
the pandas default `kind="quicksort"`; sorting always succeeds (a sorted
permutation of the rows exists for the NaN-last key order), but pandas
documents quicksort as not stable, so the relative order of rows with exactly
equal raw p-values is unspecified rather than guaranteed to be input order. -/
theorem engine_emission_sortable (tsf : ℚ → ℚ → ℚ) (ord : List ℕ)
    (counts : CountsTable) (metadata : List (String × String)) (out : EngineOutput)
    (_hok : engineRun tsf ord counts metadata = .ok out) :
    ∃ emitted, IsSortValuesOutput out.table emitted :=
  ⟨List.insertionSort rowLE out.table,
    List.perm_insertionSort rowLE out.table,
    List.sorted_insertionSort rowLE out.table⟩

theorem engine_emission_sortable_witness :
    ∃ emitted, IsSortValuesOutput
      (EngineOutput.mk "A" "B"
        [(⟨"G1", 1, 2, -1, some 0⟩, some 0), (⟨"G2", 1, 2, -1, some 0⟩, some 0)]).table
      emitted :=
  engine_emission_sortable (fun _ _ => 0) [0, 1]
    ⟨["S1", "S2", "S3", "S4"], [("G1", [1, 1, 2, 2]), ("G2", [1, 1, 2, 2])]⟩
    [("S1", "A"), ("S2", "A"), ("S3", "B"), ("S4", "B")] _ (by decide)

/-- C3 counterexample: a run with two genes of identical data emits two rows
with exactly equal raw p-values; the reversed table satisfies everything the
`sort_values("p_value", kind="quicksort")` contract promises (a permutation of
the rows, non-decreasing in the key), while breaking the original relative
order of the tied rows, so preserved input order for ties is not a property
the emission step guarantees. -/
theorem engine_sort_tie_order_counterexample :
    engineRun (fun _ _ => 0) [0, 1]
        ⟨["S1", "S2", "S3", "S4"], [("G1", [1, 1, 2, 2]), ("G2", [1, 1, 2, 2])]⟩
        [("S1", "A"), ("S2", "A"), ("S3", "B"), ("S4", "B")]
      = .ok (EngineOutput.mk "A" "B"
        [(⟨"G1", 1, 2, -1, some 0⟩, some 0), (⟨"G2", 1, 2, -1, some 0⟩, some 0)]) ∧
    (EngineOutput.mk "A" "B"
        [(⟨"G1", 1, 2, -1, some 0⟩, some 0), (⟨"G2", 1, 2, -1, some 0⟩, some 0)]).table.map
      (fun r => r.1.p_value) = [some 0, some 0] ∧
    IsSortValuesOutput
      (EngineOutput.mk "A" "B"
        [(⟨"G1", 1, 2, -1, some 0⟩, some 0), (⟨"G2", 1, 2, -1, some 0⟩, some 0)]).table
      [(⟨"G2", 1, 2, -1, some 0⟩, some 0), (⟨"G1", 1, 2, -1, some 0⟩, some 0)] ∧
    [(⟨"G2", 1, 2, -1, (some 0 : Option ℚ)⟩, (some 0 : Option ℚ)),
        (⟨"G1", 1, 2, -1, some 0⟩, some 0)]
      ≠ (EngineOutput.mk "A" "B"
        [(⟨"G1", 1, 2, -1, some 0⟩, some 0), (⟨"G2", 1, 2, -1, some 0⟩, some 0)]).table := by
  refine ⟨by decide, by decide, ?_, by decide⟩
  constructor
  · decide
  · decide

/-- C7 counterexample: a count matrix whose column `S2` sums to zero. The
normalizer raises nothing: it succeeds and silently emits NaN for every gene
in that column (`0/0` during the CPM division), instead of signalling an
explicit error. -/
theorem normalizer_zero_sum_silent_nan_counterexample :
    preprocessRun (fun q => q) ⟨["S1", "S2"], [("G1", [5, 0]), ("G2", [3, 0])]⟩
        [("S1", "A"), ("S2", "B")]
      = .ok [("G1", [FVal.fin 625001, FVal.nan]), ("G2", [FVal.fin 375001, FVal.nan])] ∧
    FVal.nan ∈ [FVal.fin 625001, FVal.nan] := by decide

/-- C7 amended: a requested sample column whose entries are all zero (so its
column total is zero) is not detected by the normalizer: the run succeeds,
and the output of every gene carries NaN in that column, because the CPM
step divides `0/0`; callers must guard against zero column sums. -/
theorem preprocess_zero_sum_column_nan (l2 : ℚ → ℚ) (counts : CountsTable)
    (metadata : List (String × String)) (k : ℕ) (hk : k < metadata.length)
    (hzero : ∀ r ∈ counts.rows,
      r.2.getD (counts.samples.indexOf ((metadata.map (fun x => x.1)).getD k "")) 0 = 0)
    (hnomiss : ∀ s ∈ metadata.map (fun x => x.1), counts.samples.contains s) :
    ∃ t, preprocessRun l2 counts metadata = .ok t ∧
      ∀ r ∈ t, r.2.getD k FVal.nan = FVal.nan := by
  have hmz : (metadata.map (fun r => r.1)).filter (fun s => !counts.samples.contains s)
      = [] := by
    rw [List.filter_eq_nil_iff]
    intro s hs
    simpa using hnomiss s hs
  have hklen : k < (metadata.map (fun r => r.1)).length := by simpa using hk
  refine ⟨log2_cpm l2 (counts.rows.map (fun r =>
      (r.1, (metadata.map (fun r => r.1)).map
        (fun s => r.2.getD (counts.samples.indexOf s) 0))))
      (metadata.map (fun r => r.1)).length, ?_, ?_⟩
  · simp only [preprocessRun]
    rw [hmz]
    simp
  · intro r hr
    simp only [log2_cpm, List.mem_map] at hr
    obtain ⟨r1, hr1, rfl⟩ := hr
    obtain ⟨r0, hr0, rfl⟩ := hr1
    have hcol : ((counts.rows.map (fun r =>
        (r.1, (metadata.map (fun r => r.1)).map
          (fun s => r.2.getD (counts.samples.indexOf s) 0)))).map
        (fun r => r.2.getD k 0)).sum = 0 := by
      rw [List.map_map]
      apply List.sum_eq_zero
      intro x hx
      obtain ⟨r2, hr2, rfl⟩ := List.mem_map.mp hx
      show ((metadata.map (fun r => r.1)).map
        (fun s => r2.2.getD (counts.samples.indexOf s) 0)).getD k 0 = 0
      rw [List.getD_eq_getElem _ _ (by simpa using hklen), List.getElem_map,
        ← List.getD_eq_getElem _ "" hklen]
      exact hzero r2 hr2
    have hv : ((metadata.map (fun r => r.1)).map
        (fun s => r0.2.getD (counts.samples.indexOf s) 0)).getD k 0 = 0 := by
      rw [List.getD_eq_getElem _ _ (by simpa using hklen), List.getElem_map,
        ← List.getD_eq_getElem _ "" hklen]
      exact hzero r0 hr0
    rw [List.getD_eq_getElem _ _ (by simpa using hklen)]
    rw [List.getElem_map, List.getElem_range]
    rw [hv, hcol]
    simp [fdiv, fscaleCPM, faddOne, flog2]

theorem preprocess_zero_sum_column_nan_witness :
    ∃ t, preprocessRun (fun q => q) ⟨["S1", "S2"], [("G1", [5, 0]), ("G2", [3, 0])]⟩
        [("S1", "A"), ("S2", "B")] = .ok t ∧
      ∀ r ∈ t, r.2.getD 1 FVal.nan = FVal.nan :=
  preprocess_zero_sum_column_nan (fun q => q)
    ⟨["S1", "S2"], [("G1", [5, 0]), ("G2", [3, 0])]⟩
    [("S1", "A"), ("S2", "B")] 1 (by decide) (by decide) (by decide)
